import Mathlib

/-!
Verification of the spice-target action compiler (fault/spice_target.py).

The file gives a shallow embedding of the compiler: port/value/action data
model, bus expansion (`expand_bus`), action compilation (`compile_actions`),
netlist port ordering (`get_ordered_ports`), the result interpreter
(`impl_expect`, `check_results`), and the effectful skeletons of the
constructor and `write_test_bench`.  Python floats are modelled as exact
rationals; Python exceptions are modelled with `Except`; the insertion-ordered
Python dict used for stimulus accumulation is modelled as an association list.
Theorems about the claims follow the definitions.
-/

namespace Fault

/-- Kind of a magma port as distinguished by the source's isinstance checks:
`m.BitType` (single digital bit), `m.BitsType` (bus of the given width),
`fault.RealType`, `fault.ElectType`. -/
inductive PortType where
  | bitT
  | bitsT (width : Nat)
  | realT
  | electT
deriving DecidableEq, Repr

/-- A port: a name (its `f-string` rendering) and a kind. -/
structure Port where
  name : String
  type : PortType
deriving DecidableEq, Repr

/-- A value carried by a Poke/Expect action: the sentinel `fault.HiZ`,
an integer (also standing for BitVector values), or a real number. -/
inductive Value where
  | hiZ
  | int (z : ℤ)
  | rat (q : ℚ)
deriving DecidableEq, Repr

/-- Python truthiness of a value (`if action.value`): nonzero numbers are
truthy; the HiZ sentinel object is truthy (that case is unreachable in the
source because HiZ is tested first). -/
def Value.truthy : Value → Bool
  | .hiZ => true
  | .int z => z != 0
  | .rat q => q != 0

/-- The numeric content of a value, used where the source passes
`action.value` through unchanged as an analog level. -/
def Value.toRat : Value → ℚ
  | .hiZ => 0
  | .int z => (z : ℚ)
  | .rat q => q

/-- A `fault.actions.Poke`: target port, value, optional explicit delay. -/
structure PokeAct where
  port : Port
  value : Value
  delay : Option ℚ
deriving DecidableEq, Repr

/-- A `fault.actions.Expect`: target port, expected value, optional
`above`/`below` bounds, and the `strict` flag (carried but unused by the
spice target, it is preserved by bus expansion's `copy`). -/
structure ExpectAct where
  port : Port
  value : Value
  above : Option ℚ
  below : Option ℚ
  strict : Bool
deriving DecidableEq, Repr

/-- A `fault.actions.Print`: the referenced ports and the format string. -/
structure PrintAct where
  ports : List Port
  format_str : String
deriving DecidableEq, Repr

/-- The action variants handled by `SpiceTarget.compile_actions`. -/
inductive Action where
  | poke (a : PokeAct)
  | expect (a : ExpectAct)
  | print (a : PrintAct)
  | delay (time : ℚ)
deriving DecidableEq, Repr

/-- The configuration held by a `SpiceTarget` (the fields consulted by the
compilation and checking paths). -/
structure Config where
  directory : String
  simulator : String
  vsup : ℚ
  rout : ℚ
  t_step : Option ℚ
  clock_step_delay : ℚ
  t_tr : ℚ
  vil_rel : ℚ
  vih_rel : ℚ
  rz : ℚ
  conn_order : String
  bus_delim : String
  bus_order : String
deriving DecidableEq, Repr

/-- `SpiceTarget.bit_from_bus`: render the name of bit `k` of a bus port
under the configured delimiter style; unknown delimiters raise. -/
def bit_from_bus (cfg : Config) (portName : String) (k : Nat) : Except String String :=
  if cfg.bus_delim = "<>" then .ok (portName ++ "<" ++ toString k ++ ">")
  else if cfg.bus_delim = "[]" then .ok (portName ++ "[" ++ toString k ++ "]")
  else if cfg.bus_delim = "_" then .ok (portName ++ "_" ++ toString k)
  else .error ("Unknown bus delimeter: " ++ cfg.bus_delim)

/-- `get_value_at_bit` from `SpiceTarget.expand_bus`: HiZ expands to HiZ on
every bit; an integer is read as a `width`-bit word (two's complement, as
`hwtypes.BitVector[width]` does) and bit `k` extracted; a non-integral value
cannot be converted to a BitVector (Python raises a TypeError). -/
def get_value_at_bit (width : Nat) (value : Value) (k : Nat) : Except String Value :=
  match value with
  | .hiZ => .ok .hiZ
  | .int z => .ok (.int (if (z % (2 ^ width : ℤ)).toNat.testBit k then 1 else 0))
  | .rat _ => .error "TypeError: cannot convert non-integer value to BitVector"

/-- The per-bit loop of `SpiceTarget.expand_bus`: for each index in `ks`
build the single-bit action via `mk` from the bit name and the bit value.
Errors propagate from the first failing index, as the Python loop raises. -/
def expand_bus_bits (cfg : Config) (width : Nat) (mk : String → Value → Action)
    (portName : String) (value : Value) : List Nat → Except String (List Action)
  | [] => .ok []
  | k :: ks =>
    match bit_from_bus cfg portName k with
    | .error e => .error e
    | .ok nm =>
      match get_value_at_bit width value k with
      | .error e => .error e
      | .ok bv =>
        match expand_bus_bits cfg width mk portName value ks with
        | .error e => .error e
        | .ok rest => .ok (mk nm bv :: rest)

/-- The bit-width the source obtains by `len(action.port)`. -/
def portLen (p : Port) : Nat :=
  match p.type with
  | .bitsT n => n
  | _ => 1

/-- `SpiceTarget.expand_bus`: expand a bus-targeted Poke/Expect into one
single-bit action per bit index `0..len(port)-1`; `copy(action)` preserves
all fields other than `port` and `value`, which is rendered here by the
structure-update in `mk`.  Other action kinds pass through (the source only
calls this on bus Poke/Expect). -/
def expand_bus (cfg : Config) (a : Action) : Except String (List Action) :=
  match a with
  | .poke p =>
    expand_bus_bits cfg (portLen p.port)
      (fun nm v => .poke { p with port := { name := nm, type := .bitT }, value := v })
      p.port.name p.value (List.range (portLen p.port))
  | .expect e =>
    expand_bus_bits cfg (portLen e.port)
      (fun nm v => .expect { e with port := { name := nm, type := .bitT }, value := v })
      e.port.name e.value (List.range (portLen e.port))
  | other => .ok [other]

/-- The guard in `compile_actions`: only Poke/Expect actions whose port is a
`m.BitsType` are expanded. -/
def isBusPokeExpect : Action → Bool
  | .poke p =>
    match p.port.type with
    | .bitsT _ => true
    | _ => false
  | .expect e =>
    match e.port.type with
    | .bitsT _ => true
    | _ => false
  | _ => false

/-- The bus-expansion pass at the top of `compile_actions` (the `_actions`
loop): expand each bus Poke/Expect in place, keep other actions. -/
def expandActions (cfg : Config) : List Action → Except String (List Action)
  | [] => .ok []
  | a :: rest =>
    match (if isBusPokeExpect a then expand_bus cfg a else .ok [a]) with
    | .error e => .error e
    | .ok ex =>
      match expandActions cfg rest with
      | .error e => .error e
      | .ok r => .ok (ex ++ r)

/-- The stimulus resolution in the Poke branch of `compile_actions`:
HiZ yields value 0 with switch state 0; a value on a single-bit digital port
yields `vsup` (truthy) or 0 with switch state 1; any other value passes
through unchanged with switch state 1. -/
def stim_pair (cfg : Config) (port : Port) (value : Value) : ℚ × ℚ :=
  if value = .hiZ then (0, 0)
  else if port.type = .bitT then ((if value.truthy then cfg.vsup else 0), 1)
  else (value.toRat, 1)

/-- A port's two stimulus accumulators: (time, value) pairs and
(time, switch-state) pairs. -/
abbrev PWCPair := List (ℚ × ℚ) × List (ℚ × ℚ)

/-- Lookup in the insertion-ordered stimulus dictionary. -/
def pwcLookup {α : Type} (name : String) : List (String × α) → Option α
  | [] => none
  | (n, v) :: rest => if n = name then some v else pwcLookup name rest

/-- The dict update performed by the Poke branch: create the entry with
empty accumulators if absent (appending at the end, as Python dicts keep
insertion order), then append the value pair and the switch pair. -/
def pwcAppend (d : List (String × PWCPair)) (name : String) (pv ps : ℚ × ℚ) :
    List (String × PWCPair) :=
  match d with
  | [] => [(name, ([pv], [ps]))]
  | (n, vs) :: rest =>
    if n = name then (n, (vs.1 ++ [pv], vs.2 ++ [ps])) :: rest
    else (n, vs) :: pwcAppend rest name pv ps

/-- The mutable state of the `compile_actions` loop. -/
structure CompState where
  t : ℚ
  pwc_dict : List (String × PWCPair)
  checks : List (ℚ × ExpectAct)
  prints : List (ℚ × PrintAct)
  saves : Finset String
deriving DecidableEq

/-- One iteration of the action loop in `compile_actions`:
Poke appends the resolved stimulus pair at the current time and advances the
clock by the explicit delay, else by `clock_step_delay * 1e-9`; Expect records
`(t, action)` and saves the port name; Print records `(t, action)` and saves
every referenced port name; Delay advances the clock by its duration. -/
def compileStep (cfg : Config) (s : CompState) : Action → CompState
  | .poke a =>
    let sv := stim_pair cfg a.port a.value
    let pwc := pwcAppend s.pwc_dict a.port.name (s.t, sv.1) (s.t, sv.2)
    let t :=
      match a.delay with
      | none => s.t + cfg.clock_step_delay * (1 / 10 ^ 9)
      | some d => s.t + d
    { s with pwc_dict := pwc, t := t }
  | .expect a =>
    { s with checks := s.checks ++ [(s.t, a)], saves := insert a.port.name s.saves }
  | .print a =>
    { s with prints := s.prints ++ [(s.t, a)],
             saves := a.ports.foldl (fun acc p => insert p.name acc) s.saves }
  | .delay d => { s with t := s.t + d }

/-- The initial loop state: `t = 0`, empty accumulators. -/
def initCompState : CompState :=
  { t := 0, pwc_dict := [], checks := [], prints := [], saves := ∅ }

/-- Ramp insertion between consecutive distinct levels of a
piecewise-constant timeline. -/
def pwlRamps (t_tr : ℚ) : ℚ → List (ℚ × ℚ) → List (ℚ × ℚ)
  | _, [] => []
  | vprev, (t, v) :: rest =>
    if v = vprev then pwlRamps t_tr vprev rest
    else (t, vprev) :: (t + t_tr, v) :: pwlRamps t_tr v rest

/-- Modelled from the spec: `pwc_to_pwl` lives in `fault/pwl.py`, which is not
among the provided sources.  Per the spec's Transducer section, between
consecutive distinct levels a linear ramp of duration `t_tr` is inserted at
the step's time; the first level is held from time 0, unless an explicit
`init` value is given (used for the switch waveform), in which case the
waveform starts from `init`.  End-of-interval bookkeeping at `t_stop` is not
needed by any claim and is elided. -/
def pwc_to_pwl (pwc : List (ℚ × ℚ)) (_t_stop : ℚ) (t_tr : ℚ) (init : Option ℚ) :
    List (ℚ × ℚ) :=
  match pwc with
  | [] => []
  | (t0, v0) :: rest =>
    match init with
    | none => (0, v0) :: pwlRamps t_tr v0 rest
    | some i => (0, i) :: pwlRamps t_tr i ((t0, v0) :: rest)

/-- `CompiledSpiceActions`: per-port PWL waveform pairs, timed checks, timed
prints, the stop time, and the set of signals to record. -/
structure CompiledSpiceActions where
  pwls : List (String × (List (ℚ × ℚ) × List (ℚ × ℚ)))
  checks : List (ℚ × ExpectAct)
  prints : List (ℚ × PrintAct)
  stop_time : ℚ
  saves : Finset String
deriving DecidableEq

/-- `SpiceTarget.compile_actions`: expand buses, fold the action loop from
the initial state, convert each accumulator pair to PWL (the switch waveform
with `init=1`), and package the result with `stop_time = t`.  The
`NotImplementedError` branch for unknown action kinds is unreachable here
because `Action` enumerates exactly the four handled variants. -/
def compile_actions (cfg : Config) (actions : List Action) :
    Except String CompiledSpiceActions :=
  match expandActions cfg actions with
  | .error e => .error e
  | .ok acts =>
    let s := acts.foldl (compileStep cfg) initCompState
    .ok { pwls := s.pwc_dict.map (fun nv =>
            (nv.1, (pwc_to_pwl nv.2.1 s.t cfg.t_tr none,
                    pwc_to_pwl nv.2.2 s.t cfg.t_tr (some 1)))),
          checks := s.checks,
          prints := s.prints,
          stop_time := s.t,
          saves := s.saves }

/-- Errors raised by the result interpreter: `A2DError` with the ambiguous
sampled level, and `AssertionError` carrying the populated bounds, the
expected value and the observed value. -/
inductive SpiceErr where
  | a2dError (v : ℚ)
  | assertionError (above below : Option ℚ) (expected : Value) (observed : ℚ)
deriving DecidableEq, Repr

/-- The leaf component of a hierarchical signal name, i.e. the source's
`name.split('.')[-1]`: the (possibly empty) suffix after the last dot, the
whole name when no dot occurs.  Implemented as a structural fold over the
characters so that it evaluates by kernel reduction. -/
def leafName (name : String) : String :=
  String.mk (name.data.foldl (fun acc c => if c = '.' then [] else acc ++ [c]) [])

/-- Equality of `Except` values is decidable when both components are. -/
instance {ε α : Type} [DecidableEq ε] [DecidableEq α] : DecidableEq (Except ε α) :=
  fun x y =>
    match x, y with
    | .ok a, .ok b =>
      if h : a = b then .isTrue (congrArg Except.ok h)
      else .isFalse (fun hc => h (Except.ok.inj hc))
    | .error a, .error b =>
      if h : a = b then .isTrue (congrArg Except.error h)
      else .isFalse (fun hc => h (Except.error.inj hc))
    | .ok _, .error _ => .isFalse (fun hc => Except.noConfusion hc)
    | .error _, .ok _ => .isFalse (fun hc => Except.noConfusion hc)

/-- The thresholding in `impl_expect` for a single digital bit:
`value <= vil_rel*vsup` decodes to 0, else `value >= vih_rel*vsup` decodes
to 1, else `A2DError` is raised. -/
def a2d_convert (cfg : Config) (value : ℚ) : Except SpiceErr ℚ :=
  if value ≤ cfg.vil_rel * cfg.vsup then .ok 0
  else if value ≥ cfg.vih_rel * cfg.vsup then .ok 1
  else .error (.a2dError value)

/-- The sampling prefix of `impl_expect`: look the signal up under the leaf
component of the port name, sample at `time`, and apply the A2D conversion
when the port is a single digital bit.  The parsed trace is modelled as a
total map from signal name and time to a value. -/
def decoded_value (cfg : Config) (results : String → ℚ → ℚ) (time : ℚ)
    (action : ExpectAct) : Except SpiceErr ℚ :=
  match action.port.type with
  | .bitT => a2d_convert cfg (results (leafName action.port.name) time)
  | _ => .ok (results (leafName action.port.name) time)

/-- Python equality `value == action.value` between the decoded numeric value
and the action's expected value (comparison with the HiZ sentinel is False). -/
def valueEqNum : Value → ℚ → Bool
  | .hiZ, _ => false
  | .int z, q => q == (z : ℚ)
  | .rat r, q => q == r

/-- `SpiceTarget.impl_expect`: decode the sampled value, then apply exactly
one check depending on which of `above`/`below` are populated: inclusive
range, lower bound only, upper bound only, or exact equality. -/
def impl_expect (cfg : Config) (results : String → ℚ → ℚ) (time : ℚ)
    (action : ExpectAct) : Except SpiceErr Unit :=
  match decoded_value cfg results time action with
  | .error e => .error e
  | .ok value =>
    match action.above, action.below with
    | some ab, some be =>
      if ab ≤ value ∧ value ≤ be then .ok ()
      else .error (.assertionError (some ab) (some be) action.value value)
    | some ab, none =>
      if ab ≤ value then .ok ()
      else .error (.assertionError (some ab) none action.value value)
    | none, some be =>
      if value ≤ be then .ok ()
      else .error (.assertionError none (some be) action.value value)
    | none, none =>
      if valueEqNum action.value value then .ok ()
      else .error (.assertionError none none action.value value)

/-- `SpiceTarget.check_results`: run `impl_expect` over the recorded checks
in order; the first raised error propagates and aborts the remaining
checks. -/
def check_results (cfg : Config) (results : String → ℚ → ℚ) :
    List (ℚ × ExpectAct) → Except SpiceErr Unit
  | [] => .ok ()
  | c :: rest =>
    match impl_expect cfg results c.1 c.2 with
    | .error e => .error e
    | .ok _ => check_results cfg results rest

/-- Filesystem / process side effects performed by the modelled object. -/
inductive IOEvent where
  | makedirs (dir : String)
  | fileWrite (path : String)
deriving DecidableEq, Repr

/-- `SpiceTarget.__init__`: after the (effect-free) super constructor, the
simulator name is validated; an unsupported name raises before `os.makedirs`
runs, so the returned event trace is empty in that case; otherwise the
working directory is created and the settings are stored. -/
def spice_target_init (simulator directory : String) :
    List IOEvent × Except String Unit :=
  if simulator = "ngspice" ∨ simulator = "spectre" ∨ simulator = "hspice"
  then ([IOEvent.makedirs directory], .ok ())
  else ([], .error ("Unsupported simulator " ++ simulator))

/-- Insertion into a name-sorted port list, for modelling Python's
`sorted(port_names, key=...)`. -/
def insertByName (p : Port) : List Port → List Port
  | [] => [p]
  | q :: rest => if p.name ≤ q.name then p :: q :: rest else q :: insertByName p rest

/-- Sort the circuit's ports by their rendered name. -/
def sortByName (l : List Port) : List Port := l.foldr insertByName []

/-- The bit-index order used by `get_alpha_ordered_ports` for a bus of
width `n`: `range(n)` when ascending, `reversed(range(n))` when descending,
otherwise an error. -/
def bus_indices (cfg : Config) (n : Nat) : Except String (List Nat) :=
  if cfg.bus_order = "ascend" then .ok (List.range n)
  else if cfg.bus_order = "descend" then .ok (List.range n).reverse
  else .error ("Unsupported bus order: " ++ cfg.bus_order)

/-- The per-port expansion inside `get_alpha_ordered_ports`: scalar ports
(bit, real, electrical) contribute their own name; a bus contributes one
bit name per index in the configured order. -/
def port_conn_names (cfg : Config) (p : Port) : Except String (List String) :=
  match p.type with
  | .bitsT n =>
    match bus_indices cfg n with
    | .error e => .error e
    | .ok idx =>
      idx.foldlM (fun acc k =>
        match bit_from_bus cfg p.name k with
        | .error e => Except.error e
        | .ok nm => Except.ok (acc ++ [nm])) []
  | _ => .ok [p.name]

/-- `SpiceTarget.get_alpha_ordered_ports`: sort the interface ports by name
and expand buses into their bits. -/
def get_alpha_ordered_ports (cfg : Config) (ports : List Port) :
    Except String (List String) :=
  (sortByName ports).foldlM (fun acc p =>
    match port_conn_names cfg p with
    | .error e => Except.error e
    | .ok nms => Except.ok (acc ++ nms)) []

/-- `SpiceTarget.get_ordered_ports`: dispatch on `conn_order`; the `parse`
mode always raises `Spice parsing is not implemented yet.`. -/
def get_ordered_ports (cfg : Config) (ports : List Port) :
    Except String (List String) :=
  if cfg.conn_order = "alpha" then get_alpha_ordered_ports cfg ports
  else if cfg.conn_order = "parse" then .error "Spice parsing is not implemented yet."
  else .error ("Unknown conn_order: " ++ cfg.conn_order ++ ".")

/-- The testbench path `directory / circuit.name + "_tb.sp"`. -/
def tb_file_path (cfg : Config) (circuitName : String) : String :=
  cfg.directory ++ "/" ++ circuitName ++ "_tb.sp"

/-- The I/O behavior of `SpiceTarget.write_test_bench`: the netlist is built
entirely in memory (comment, includes, DUT instantiation over
`get_ordered_ports`, load capacitors, switch subcircuit, stimuli, probes,
initial conditions, transient directive, control block perform no file or
process I/O, and none of them can raise once the simulator name was
validated by the constructor); the single filesystem write is
`netlist.write_to_file` at the very end.  An error raised by
`get_ordered_ports` therefore propagates with no I/O event emitted. -/
def write_test_bench (cfg : Config) (circuitPorts : List Port)
    (circuitName : String) (_comp : CompiledSpiceActions) :
    List IOEvent × Except String String :=
  match get_ordered_ports cfg circuitPorts with
  | .error e => ([], .error e)
  | .ok _ =>
    ([IOEvent.fileWrite (tb_file_path cfg circuitName)],
     .ok (tb_file_path cfg circuitName))

/-- The constructor defaults of `SpiceTarget` (floats rendered exactly). -/
def defaultConfig : Config :=
  { directory := "build/", simulator := "ngspice", vsup := 1, rout := 1,
    t_step := none, clock_step_delay := 5, t_tr := 1 / 5000000000,
    vil_rel := 2 / 5, vih_rel := 3 / 5, rz := 1000000000,
    conn_order := "alpha", bus_delim := "<>", bus_order := "descend" }

/-- The virtual-clock advance of a single normalized action, as the claims
state it: a Poke consumes its explicit delay if given, else the default step
`clock_step_delay * 1e-9`; a Delay consumes its duration; Expect and Print
consume nothing. -/
def actionDelay (cfg : Config) : Action → ℚ
  | .poke p =>
    match p.delay with
    | none => cfg.clock_step_delay * (1 / 10 ^ 9)
    | some d => d
  | .delay d => d
  | _ => 0

/-- The bit name the bus-expansion claim describes: the bus name with index
`k` rendered per delimiter style (angle brackets, square brackets, or
underscore). -/
def busBitName (delim name : String) (k : Nat) : String :=
  if delim = "<>" then name ++ "<" ++ toString k ++ ">"
  else if delim = "[]" then name ++ "[" ++ toString k ++ "]"
  else name ++ "_" ++ toString k

/-- The bit value the bus-expansion claim describes: bit `k` of the value
read as an `n`-bit word, except that high impedance expands to high
impedance on every bit. -/
def bitValueAsWord (n : Nat) (v : Value) (k : Nat) : Value :=
  match v with
  | .hiZ => .hiZ
  | .int z => .int (if (z % (2 ^ n : ℤ)).toNat.testBit k then 1 else 0)
  | .rat q => .rat q

/-- Nonnegativity of the delays an action consumes (the hypothesis of the
stop-time invariant claim). -/
def delaysNonneg : Action → Prop
  | .poke p =>
    match p.delay with
    | none => True
    | some d => 0 ≤ d
  | .delay d => 0 ≤ d
  | _ => True

/-- The saves invariant on the loop state: every port name referenced by a
recorded check or print is in the recorded-signal set. -/
def savesInv (s : CompState) : Prop :=
  (∀ c ∈ s.checks, c.2.port.name ∈ s.saves) ∧
  (∀ pr ∈ s.prints, ∀ p ∈ pr.2.ports, p.name ∈ s.saves)

/-- The time invariant on the loop state: every recorded check and print
time is at most the current virtual clock. -/
def timesInv (s : CompState) : Prop :=
  (∀ c ∈ s.checks, c.1 ≤ s.t) ∧ (∀ pr ∈ s.prints, pr.1 ≤ s.t)

/-- A parsed trace in which every signal is 0 at every time (used for
concrete evaluations). -/
def constZeroTrace : String → ℚ → ℚ := fun _ _ => 0

/-- A concrete single-bit expect action on port `out`. -/
def outExpect : ExpectAct :=
  { port := { name := "out", type := .bitT }, value := .int 1,
    above := none, below := none, strict := false }

/-- A concrete action list: a driven poke, a delay, and an expect. -/
def c1Acts : List Action :=
  [.poke { port := { name := "a", type := .bitT }, value := .int 1, delay := some 2 },
   .delay 3,
   .expect outExpect]

/-- The compilation of `c1Acts` under the default configuration. -/
def c1Comp : CompiledSpiceActions :=
  { pwls := [("a", ([(0, 1)], [(0, 1)]))],
    checks := [(5, outExpect)],
    prints := [],
    stop_time := 5,
    saves := {"out"} }

/-- A concrete action list with a print, for the invariants witness. -/
def c6Acts : List Action :=
  [.poke { port := { name := "a", type := .bitT }, value := .int 1, delay := some 2 },
   .expect outExpect,
   .print { ports := [{ name := "x", type := .realT }], format_str := "{}" },
   .delay 3]

/-- The compilation of `c6Acts` under the default configuration. -/
def c6Comp : CompiledSpiceActions :=
  { pwls := [("a", ([(0, 1)], [(0, 1)]))],
    checks := [(2, outExpect)],
    prints := [(2, { ports := [{ name := "x", type := .realT }], format_str := "{}" })],
    stop_time := 5,
    saves := {"x", "out"} }

/-- A concrete poke on a two-bit bus, for the expansion witness. -/
def c4Poke : PokeAct :=
  { port := { name := "bus", type := .bitsT 2 }, value := .int 2, delay := some 1 }

/-- A concrete expect on a two-bit bus, for the expansion witness. -/
def c4Expect : ExpectAct :=
  { port := { name := "bus", type := .bitsT 2 }, value := .hiZ,
    above := none, below := some 7, strict := true }

/-- A concrete expect that succeeds against the all-zero trace. -/
def passCheck : ℚ × ExpectAct :=
  (0, { port := { name := "n1", type := .realT }, value := .rat 0,
        above := none, below := none, strict := false })

/-- A concrete expect that fails against the all-zero trace. -/
def failCheck1 : ℚ × ExpectAct :=
  (0, { port := { name := "n2", type := .realT }, value := .int 1,
        above := none, below := none, strict := false })

/-- A second concrete failing expect, with a distinct error. -/
def failCheck2 : ℚ × ExpectAct :=
  (0, { port := { name := "n3", type := .realT }, value := .int 2,
        above := none, below := none, strict := false })

/-- The default configuration with the unimplemented `parse` ordering mode
selected. -/
def parseConfig : Config := { defaultConfig with conn_order := "parse" }

/-- An empty compilation result, for the testbench witness. -/
def emptyComp : CompiledSpiceActions :=
  { pwls := [], checks := [], prints := [], stop_time := 0, saves := ∅ }

/-! ### Theorems -/

theorem compileStep_t (cfg : Config) (s : CompState) (a : Action) :
    (compileStep cfg s a).t = s.t + actionDelay cfg a := by
  cases a with
  | poke p => cases hd : p.delay <;> simp [compileStep, actionDelay, hd]
  | expect e => simp [compileStep, actionDelay]
  | print pr => simp [compileStep, actionDelay]
  | delay d => simp [compileStep, actionDelay]

theorem foldl_compileStep_t (cfg : Config) (acts : List Action) :
    ∀ s : CompState, (acts.foldl (compileStep cfg) s).t
      = s.t + (acts.map (actionDelay cfg)).sum := by
  induction acts with
  | nil => intro s; simp
  | cons a rest ih =>
    intro s
    simp only [List.foldl_cons, List.map_cons, List.sum_cons]
    rw [ih, compileStep_t]
    ring

/-- C1: for every action sequence the compiler accepts, the compiled
`stop_time` equals the sum, over the normalized action stream, of the delays
consumed — each Poke its explicit delay if given, else the default step,
each Delay its duration, Expect and Print nothing — independent of which or
how many ports the actions touch. -/
theorem stop_time_eq_sum_delays (cfg : Config) (actions acts : List Action)
    (comp : CompiledSpiceActions)
    (hexp : expandActions cfg actions = .ok acts)
    (hcomp : compile_actions cfg actions = .ok comp) :
    comp.stop_time = (acts.map (actionDelay cfg)).sum := by
  unfold compile_actions at hcomp
  rw [hexp] at hcomp
  simp only [Except.ok.injEq] at hcomp
  subst hcomp
  simp [foldl_compileStep_t, initCompState]

/-- Witness for C1 at a concrete action list under the default
configuration. -/
theorem stop_time_eq_sum_delays_witness :
    c1Comp.stop_time = (c1Acts.map (actionDelay defaultConfig)).sum :=
  stop_time_eq_sum_delays defaultConfig c1Acts c1Acts c1Comp (by decide)
    (by
      norm_num [compile_actions, expandActions, isBusPokeExpect, expand_bus,
        compileStep, initCompState, stim_pair, Value.truthy, pwcAppend, pwc_to_pwl,
        pwlRamps, c1Acts, c1Comp, defaultConfig, outExpect]
      simp)

theorem pwcLookup_pwcAppend (d : List (String × PWCPair)) (name : String)
    (pv ps : ℚ × ℚ) :
    pwcLookup name (pwcAppend d name pv ps)
      = some (((pwcLookup name d).getD ([], [])).1 ++ [pv],
              ((pwcLookup name d).getD ([], [])).2 ++ [ps]) := by
  induction d with
  | nil => simp [pwcAppend, pwcLookup]
  | cons hd tl ih =>
    obtain ⟨n, vs⟩ := hd
    by_cases h : n = name
    · subst h
      simp [pwcAppend, pwcLookup]
    · simp [pwcAppend, pwcLookup, h, ih]

/-- C2: for every compiled Poke, the stimulus pair appended to the port's
accumulators at the current virtual time is: value 0 with switch state 0
for high impedance (whatever was previously driven); `vsup` (logic 1) or 0
(logic 0) with switch state 1 for a value on a single digital bit; the value
itself unchanged with switch state 1 otherwise. -/
theorem poke_stimulus_pair (cfg : Config) (s : CompState) (p : PokeAct) :
    pwcLookup p.port.name (compileStep cfg s (.poke p)).pwc_dict
      = some (((pwcLookup p.port.name s.pwc_dict).getD ([], [])).1
                ++ [(s.t, if p.value = .hiZ then 0
                          else if p.port.type = .bitT then
                            (if p.value.truthy then cfg.vsup else 0)
                          else p.value.toRat)],
              ((pwcLookup p.port.name s.pwc_dict).getD ([], [])).2
                ++ [(s.t, if p.value = .hiZ then 0 else 1)]) := by
  show pwcLookup p.port.name
      (pwcAppend s.pwc_dict p.port.name (s.t, (stim_pair cfg p.port p.value).1)
        (s.t, (stim_pair cfg p.port p.value).2)) = _
  rw [pwcLookup_pwcAppend]
  by_cases h1 : p.value = .hiZ
  · simp [stim_pair, h1]
  · by_cases h2 : p.port.type = .bitT <;> simp [stim_pair, h1, h2]

/-- C8: constructing the target with a simulator name other than the three
supported backends raises before `os.makedirs` runs: the error is returned
and the event trace is empty, so the working directory is not created. -/
theorem bad_simulator_init (simulator directory : String)
    (h1 : simulator ≠ "ngspice") (h2 : simulator ≠ "spectre")
    (h3 : simulator ≠ "hspice") :
    spice_target_init simulator directory
      = ([], .error ("Unsupported simulator " ++ simulator)) := by
  simp [spice_target_init, h1, h2, h3]

/-- Witness for C8 at a concrete unsupported backend name. -/
theorem bad_simulator_init_witness :
    spice_target_init "xyce" "build/"
      = ([], .error ("Unsupported simulator " ++ "xyce")) :=
  bad_simulator_init "xyce" "build/" (by decide) (by decide) (by decide)

/-- C9: selecting the `parse` port-ordering mode makes `get_ordered_ports`
fail with the not-implemented error, and `write_test_bench` propagates it
with no I/O event emitted: the testbench file is never written (and the
simulator commands, which `run` only issues after `write_test_bench`
returns, are never reached). -/
theorem parse_conn_order_fails (cfg : Config) (ports : List Port)
    (circuitName : String) (comp : CompiledSpiceActions)
    (h : cfg.conn_order = "parse") :
    get_ordered_ports cfg ports = .error "Spice parsing is not implemented yet." ∧
    write_test_bench cfg ports circuitName comp
      = ([], .error "Spice parsing is not implemented yet.") := by
  have hg : get_ordered_ports cfg ports
      = .error "Spice parsing is not implemented yet." := by
    simp [get_ordered_ports, h]
  exact ⟨hg, by simp [write_test_bench, hg]⟩

/-- Witness for C9 at a concrete configuration. -/
theorem parse_conn_order_fails_witness :
    get_ordered_ports parseConfig [] = .error "Spice parsing is not implemented yet." ∧
    write_test_bench parseConfig [] "dut" emptyComp
      = ([], .error "Spice parsing is not implemented yet.") :=
  parse_conn_order_fails parseConfig [] "dut" emptyComp rfl

/-- C10: the result interpreter samples the trace under only the final
dot-separated component of the checked port's name, so two distinct ports
with the same leaf component (and the same kind) are checked against the
same recorded signal: the check result is identical whichever of the two
ports the action carries. -/
theorem expect_uses_leaf_name (cfg : Config) (results : String → ℚ → ℚ)
    (time : ℚ) (a : ExpectAct) (p1 p2 : Port)
    (hne : p1 ≠ p2) (hleaf : leafName p1.name = leafName p2.name)
    (hty : p1.type = p2.type) :
    impl_expect cfg results time { a with port := p1 }
      = impl_expect cfg results time { a with port := p2 } := by
  have hdec : decoded_value cfg results time { a with port := p1 }
      = decoded_value cfg results time { a with port := p2 } := by
    simp only [decoded_value, hleaf, hty]
  simp only [impl_expect, hdec]

/-- Witness for C10: a hierarchical name and its leaf name decode to the
same check result. -/
theorem expect_uses_leaf_name_witness :
    impl_expect defaultConfig constZeroTrace 0
        { outExpect with port := { name := "top.dut.out", type := .bitT } }
      = impl_expect defaultConfig constZeroTrace 0
        { outExpect with port := { name := "out", type := .bitT } } :=
  expect_uses_leaf_name defaultConfig constZeroTrace 0 outExpect
    { name := "top.dut.out", type := .bitT } { name := "out", type := .bitT }
    (by decide) (by decide) rfl

/-- C3: on a single digital bit, decoding is inclusive-threshold: a sampled
value at most `vil_rel*vsup` decodes to 0, at least `vih_rel*vsup` decodes
to 1, and strictly between raises the A2D error; in particular `vsup`
decodes to 1 when `vih_rel ≤ 1`, and the exact midpoint of the thresholds
raises the A2D error through the check. -/
theorem a2d_threshold_decoding (cfg : Config)
    (hsup : 0 < cfg.vsup) (hrel : cfg.vil_rel < cfg.vih_rel) :
    (∀ v : ℚ, v ≤ cfg.vil_rel * cfg.vsup → a2d_convert cfg v = .ok 0) ∧
    (∀ v : ℚ, cfg.vih_rel * cfg.vsup ≤ v → a2d_convert cfg v = .ok 1) ∧
    (∀ v : ℚ, cfg.vil_rel * cfg.vsup < v → v < cfg.vih_rel * cfg.vsup →
      a2d_convert cfg v = .error (.a2dError v)) ∧
    (cfg.vih_rel ≤ 1 → a2d_convert cfg cfg.vsup = .ok 1) ∧
    (∀ (results : String → ℚ → ℚ) (time : ℚ) (a : ExpectAct),
      a.port.type = .bitT →
      results (leafName a.port.name) time
        = (cfg.vil_rel * cfg.vsup + cfg.vih_rel * cfg.vsup) / 2 →
      impl_expect cfg results time a
        = .error (.a2dError
            ((cfg.vil_rel * cfg.vsup + cfg.vih_rel * cfg.vsup) / 2))) := by
  have hkey : cfg.vil_rel * cfg.vsup < cfg.vih_rel * cfg.vsup :=
    mul_lt_mul_of_pos_right hrel hsup
  have hmid1 : ¬ (cfg.vil_rel * cfg.vsup + cfg.vih_rel * cfg.vsup) / 2
      ≤ cfg.vil_rel * cfg.vsup := by linarith
  have hmid2 : ¬ (cfg.vil_rel * cfg.vsup + cfg.vih_rel * cfg.vsup) / 2
      ≥ cfg.vih_rel * cfg.vsup := by
    simp only [ge_iff_le, not_le]
    linarith
  refine ⟨?_, ?_, ?_, ?_, ?_⟩
  · intro v hv
    simp [a2d_convert, hv]
  · intro v hv
    have h1 : ¬ v ≤ cfg.vil_rel * cfg.vsup := by linarith
    simp [a2d_convert, h1, hv]
  · intro v h1 h2
    have ha : ¬ v ≤ cfg.vil_rel * cfg.vsup := by linarith
    have hb : ¬ v ≥ cfg.vih_rel * cfg.vsup := by
      simp only [ge_iff_le, not_le]
      linarith
    simp [a2d_convert, ha, hb]
  · intro hih
    have hup : cfg.vih_rel * cfg.vsup ≤ cfg.vsup := by nlinarith
    have ha : ¬ cfg.vsup ≤ cfg.vil_rel * cfg.vsup := by linarith
    simp [a2d_convert, ha, hup]
  · intro results time a hty hres
    simp [impl_expect, decoded_value, hty, hres, a2d_convert, hmid1, hmid2]

/-- Witness for C3 under the default thresholds: the midpoint raises the
A2D error and the supply level decodes to logic 1. -/
theorem a2d_threshold_decoding_witness :
    a2d_convert defaultConfig
        ((defaultConfig.vil_rel * defaultConfig.vsup
          + defaultConfig.vih_rel * defaultConfig.vsup) / 2)
      = .error (.a2dError
          ((defaultConfig.vil_rel * defaultConfig.vsup
            + defaultConfig.vih_rel * defaultConfig.vsup) / 2)) ∧
    a2d_convert defaultConfig defaultConfig.vsup = .ok 1 := by
  have h := a2d_threshold_decoding defaultConfig
    (by norm_num [defaultConfig]) (by norm_num [defaultConfig])
  exact ⟨h.2.2.1 _ (by norm_num [defaultConfig]) (by norm_num [defaultConfig]),
    h.2.2.2.1 (by norm_num [defaultConfig])⟩

theorem bit_from_bus_ok (cfg : Config) (name : String) (k : Nat)
    (hd : cfg.bus_delim = "<>" ∨ cfg.bus_delim = "[]" ∨ cfg.bus_delim = "_") :
    bit_from_bus cfg name k = .ok (busBitName cfg.bus_delim name k) := by
  rcases hd with h | h | h <;> simp [bit_from_bus, busBitName, h]

theorem get_value_at_bit_ok (w : Nat) (v : Value) (k : Nat)
    (hv : v = .hiZ ∨ ∃ z, v = .int z) :
    get_value_at_bit w v k = .ok (bitValueAsWord w v k) := by
  rcases hv with h | ⟨z, h⟩ <;> subst h <;> rfl

theorem expand_bus_bits_ok (cfg : Config) (w : Nat) (mk : String → Value → Action)
    (nm : String) (v : Value)
    (hd : cfg.bus_delim = "<>" ∨ cfg.bus_delim = "[]" ∨ cfg.bus_delim = "_")
    (hv : v = .hiZ ∨ ∃ z, v = .int z) :
    ∀ ks : List Nat, expand_bus_bits cfg w mk nm v ks
      = .ok (ks.map fun k =>
          mk (busBitName cfg.bus_delim nm k) (bitValueAsWord w v k)) := by
  intro ks
  induction ks with
  | nil => rfl
  | cons k ks ih =>
    simp only [expand_bus_bits, bit_from_bus_ok cfg nm k hd,
      get_value_at_bit_ok w v k hv, ih, List.map_cons]

/-- C4: a Poke or Expect on a bus port of width N expands to exactly N
single-bit actions, one per bit index `k` in `0..N-1`, named per the
configured delimiter; the value at index `k` is bit `k` of the value read
as an N-bit word (high impedance expanding to high impedance on every bit);
and all other fields of the original action are carried over unchanged. -/
theorem expand_bus_spec :
    (∀ (cfg : Config) (p : PokeAct) (n : Nat),
      p.port.type = .bitsT n → 1 < n →
      (cfg.bus_delim = "<>" ∨ cfg.bus_delim = "[]" ∨ cfg.bus_delim = "_") →
      (p.value = .hiZ ∨ ∃ z, p.value = .int z) →
      expand_bus cfg (.poke p)
        = .ok ((List.range n).map fun k =>
            .poke { p with
                    port := { name := busBitName cfg.bus_delim p.port.name k,
                              type := .bitT },
                    value := bitValueAsWord n p.value k })) ∧
    (∀ (cfg : Config) (e : ExpectAct) (n : Nat),
      e.port.type = .bitsT n → 1 < n →
      (cfg.bus_delim = "<>" ∨ cfg.bus_delim = "[]" ∨ cfg.bus_delim = "_") →
      (e.value = .hiZ ∨ ∃ z, e.value = .int z) →
      expand_bus cfg (.expect e)
        = .ok ((List.range n).map fun k =>
            .expect { e with
                      port := { name := busBitName cfg.bus_delim e.port.name k,
                                type := .bitT },
                      value := bitValueAsWord n e.value k })) := by
  constructor
  · intro cfg p n hty hn hd hv
    have hlen : portLen p.port = n := by simp [portLen, hty]
    simp only [expand_bus, hlen]
    exact expand_bus_bits_ok cfg n _ p.port.name p.value hd hv (List.range n)
  · intro cfg e n hty hn hd hv
    have hlen : portLen e.port = n := by simp [portLen, hty]
    simp only [expand_bus, hlen]
    exact expand_bus_bits_ok cfg n _ e.port.name e.value hd hv (List.range n)

/-- Witness for C4: a two-bit bus poke of value 2 and a two-bit bus expect
of HiZ expand as the claim describes. -/
theorem expand_bus_spec_witness :
    expand_bus defaultConfig (.poke c4Poke)
      = .ok ((List.range 2).map fun k =>
          .poke { c4Poke with
                  port := { name := busBitName defaultConfig.bus_delim
                              c4Poke.port.name k,
                            type := .bitT },
                  value := bitValueAsWord 2 c4Poke.value k }) ∧
    expand_bus defaultConfig (.expect c4Expect)
      = .ok ((List.range 2).map fun k =>
          .expect { c4Expect with
                    port := { name := busBitName defaultConfig.bus_delim
                                c4Expect.port.name k,
                              type := .bitT },
                    value := bitValueAsWord 2 c4Expect.value k }) :=
  ⟨expand_bus_spec.1 defaultConfig c4Poke 2 rfl (by norm_num) (Or.inl rfl)
      (Or.inr ⟨2, rfl⟩),
   expand_bus_spec.2 defaultConfig c4Expect 2 rfl (by norm_num) (Or.inl rfl)
      (Or.inl rfl)⟩

/-- C5: given a successfully decoded value, exactly one evaluation rule
applies according to the populated fields: inclusive range when both bounds
are set, lower bound only, upper bound only, or exact equality when neither
is set. -/
theorem expect_dispatch (cfg : Config) (results : String → ℚ → ℚ) (time : ℚ)
    (a : ExpectAct) (value : ℚ)
    (hdec : decoded_value cfg results time a = .ok value) :
    (∀ ab be : ℚ, a.above = some ab → a.below = some be →
      (impl_expect cfg results time a = .ok () ↔ ab ≤ value ∧ value ≤ be)) ∧
    (∀ ab : ℚ, a.above = some ab → a.below = none →
      (impl_expect cfg results time a = .ok () ↔ ab ≤ value)) ∧
    (∀ be : ℚ, a.above = none → a.below = some be →
      (impl_expect cfg results time a = .ok () ↔ value ≤ be)) ∧
    (a.above = none → a.below = none →
      (impl_expect cfg results time a = .ok ()
        ↔ valueEqNum a.value value = true)) := by
  refine ⟨?_, ?_, ?_, ?_⟩
  · intro ab be ha hb
    by_cases h : ab ≤ value ∧ value ≤ be <;> simp [impl_expect, hdec, ha, hb, h]
  · intro ab ha hb
    by_cases h : ab ≤ value <;> simp [impl_expect, hdec, ha, hb, h]
  · intro be ha hb
    by_cases h : value ≤ be <;> simp [impl_expect, hdec, ha, hb, h]
  · intro ha hb
    by_cases h : valueEqNum a.value value <;> simp [impl_expect, hdec, ha, hb, h]

/-- Witness for C5: a range check with bounds 0 and 1 passes on the all-zero
trace. -/
theorem expect_dispatch_witness :
    impl_expect defaultConfig constZeroTrace 0
        { port := { name := "n", type := .realT }, value := .int 0,
          above := some 0, below := some 1, strict := false }
      = .ok () :=
  ((expect_dispatch defaultConfig constZeroTrace 0
      { port := { name := "n", type := .realT }, value := .int 0,
        above := some 0, below := some 1, strict := false } 0
      (by norm_num [decoded_value, constZeroTrace])).1 0 1 rfl rfl).mpr
    (by norm_num)

theorem subset_foldl_insert (ports : List Port) :
    ∀ sv : Finset String, sv ⊆ ports.foldl (fun acc p => insert p.name acc) sv := by
  induction ports with
  | nil => intro sv; simp
  | cons p ps ih =>
    intro sv
    simp only [List.foldl_cons]
    exact (Finset.subset_insert _ _).trans (ih _)

theorem name_mem_foldl_insert (ports : List Port) :
    ∀ (sv : Finset String) (p : Port), p ∈ ports →
      p.name ∈ ports.foldl (fun acc q => insert q.name acc) sv := by
  induction ports with
  | nil => intro sv p hp; cases hp
  | cons q qs ih =>
    intro sv p hp
    simp only [List.foldl_cons]
    rcases List.mem_cons.mp hp with h | h
    · subst h
      exact subset_foldl_insert qs _ (Finset.mem_insert_self _ _)
    · exact ih _ p h

theorem savesInv_compileStep (cfg : Config) (s : CompState) (a : Action)
    (h : savesInv s) : savesInv (compileStep cfg s a) := by
  obtain ⟨h1, h2⟩ := h
  cases a with
  | poke p => exact ⟨h1, h2⟩
  | delay d => exact ⟨h1, h2⟩
  | expect e =>
    constructor
    · intro c hc
      rcases List.mem_append.mp hc with hc | hc
      · exact Finset.mem_insert.mpr (Or.inr (h1 c hc))
      · simp only [List.mem_singleton] at hc
        subst hc
        exact Finset.mem_insert_self _ _
    · intro pr hpr p hp
      exact Finset.mem_insert.mpr (Or.inr (h2 pr hpr p hp))
  | print pa =>
    constructor
    · intro c hc
      exact subset_foldl_insert pa.ports s.saves (h1 c hc)
    · intro pr hpr p hp
      rcases List.mem_append.mp hpr with hpr | hpr
      · exact subset_foldl_insert pa.ports s.saves (h2 pr hpr p hp)
      · simp only [List.mem_singleton] at hpr
        subst hpr
        exact name_mem_foldl_insert pa.ports s.saves p hp

theorem savesInv_foldl (cfg : Config) (acts : List Action) :
    ∀ s : CompState, savesInv s → savesInv (acts.foldl (compileStep cfg) s) := by
  induction acts with
  | nil => intro s h; exact h
  | cons a rest ih => intro s h; exact ih _ (savesInv_compileStep cfg s a h)

theorem actionDelay_nonneg (cfg : Config) (a : Action)
    (hcsd : 0 ≤ cfg.clock_step_delay) (h : delaysNonneg a) :
    0 ≤ actionDelay cfg a := by
  cases a with
  | poke p =>
    cases hd : p.delay with
    | none =>
      simp only [actionDelay, hd]
      exact mul_nonneg hcsd (by norm_num)
    | some d =>
      simp only [actionDelay, hd]
      simpa [delaysNonneg, hd] using h
  | expect e => simp [actionDelay]
  | print pr => simp [actionDelay]
  | delay d => simpa [actionDelay, delaysNonneg] using h

theorem timesInv_compileStep (cfg : Config) (s : CompState) (a : Action)
    (hcsd : 0 ≤ cfg.clock_step_delay) (hnn : delaysNonneg a)
    (h : timesInv s) : timesInv (compileStep cfg s a) := by
  obtain ⟨h1, h2⟩ := h
  have hstep : s.t ≤ (compileStep cfg s a).t := by
    rw [compileStep_t]
    have := actionDelay_nonneg cfg a hcsd hnn
    linarith
  cases a with
  | poke p =>
    exact ⟨fun c hc => le_trans (h1 c hc) hstep,
           fun pr hpr => le_trans (h2 pr hpr) hstep⟩
  | delay d =>
    exact ⟨fun c hc => le_trans (h1 c hc) hstep,
           fun pr hpr => le_trans (h2 pr hpr) hstep⟩
  | expect e =>
    constructor
    · intro c hc
      rcases List.mem_append.mp hc with hc | hc
      · exact le_trans (h1 c hc) hstep
      · simp only [List.mem_singleton] at hc
        subst hc
        exact hstep
    · intro pr hpr
      exact le_trans (h2 pr hpr) hstep
  | print pa =>
    constructor
    · intro c hc
      exact le_trans (h1 c hc) hstep
    · intro pr hpr
      rcases List.mem_append.mp hpr with hpr | hpr
      · exact le_trans (h2 pr hpr) hstep
      · simp only [List.mem_singleton] at hpr
        subst hpr
        exact hstep

theorem timesInv_foldl (cfg : Config) (hcsd : 0 ≤ cfg.clock_step_delay) :
    ∀ (acts : List Action) (s : CompState), (∀ a ∈ acts, delaysNonneg a) →
      timesInv s → timesInv (acts.foldl (compileStep cfg) s) := by
  intro acts
  induction acts with
  | nil => intro s _ h; exact h
  | cons a rest ih =>
    intro s hnn h
    exact ih _ (fun b hb => hnn b (List.mem_cons_of_mem a hb))
      (timesInv_compileStep cfg s a hcsd (hnn a (List.mem_cons_self a rest)) h)

theorem expand_bus_bits_delaysNonneg (cfg : Config) (w : Nat)
    (mk : String → Value → Action) (nm : String) (v : Value)
    (hmk : ∀ n b, delaysNonneg (mk n b)) :
    ∀ (ks : List Nat) (acts : List Action),
      expand_bus_bits cfg w mk nm v ks = .ok acts →
      ∀ b ∈ acts, delaysNonneg b := by
  intro ks
  induction ks with
  | nil =>
    intro acts h b hb
    simp only [expand_bus_bits, Except.ok.injEq] at h
    subst h
    cases hb
  | cons k ks ih =>
    intro acts h b hb
    simp only [expand_bus_bits] at h
    cases h1 : bit_from_bus cfg nm k with
    | error e => rw [h1] at h; cases h
    | ok nm1 =>
      rw [h1] at h
      cases h2 : get_value_at_bit w v k with
      | error e => rw [h2] at h; cases h
      | ok bv =>
        rw [h2] at h
        cases h3 : expand_bus_bits cfg w mk nm v ks with
        | error e => rw [h3] at h; cases h
        | ok rest =>
          rw [h3] at h
          simp only [Except.ok.injEq] at h
          subst h
          rcases List.mem_cons.mp hb with hb | hb
          · subst hb
            exact hmk nm1 bv
          · exact ih rest h3 b hb

theorem expand_bus_delaysNonneg (cfg : Config) (a : Action) (acts : List Action)
    (h : expand_bus cfg a = .ok acts) (ha : delaysNonneg a) :
    ∀ b ∈ acts, delaysNonneg b := by
  cases a with
  | poke p =>
    refine expand_bus_bits_delaysNonneg cfg _ _ _ _ ?_ _ acts h
    intro n b
    exact ha
  | expect e =>
    refine expand_bus_bits_delaysNonneg cfg _ _ _ _ ?_ _ acts h
    intro n b
    simp [delaysNonneg]
  | print pa =>
    simp only [expand_bus, Except.ok.injEq] at h
    subst h
    intro b hb
    simp only [List.mem_singleton] at hb
    subst hb
    simp [delaysNonneg]
  | delay d =>
    simp only [expand_bus, Except.ok.injEq] at h
    subst h
    intro b hb
    simp only [List.mem_singleton] at hb
    subst hb
    exact ha

theorem expandActions_delaysNonneg (cfg : Config) :
    ∀ (actions acts : List Action), expandActions cfg actions = .ok acts →
      (∀ a ∈ actions, delaysNonneg a) → ∀ b ∈ acts, delaysNonneg b := by
  intro actions
  induction actions with
  | nil =>
    intro acts h _ b hb
    simp only [expandActions, Except.ok.injEq] at h
    subst h
    cases hb
  | cons a rest ih =>
    intro acts h hnn b hb
    simp only [expandActions] at h
    cases h1 : (if isBusPokeExpect a then expand_bus cfg a else .ok [a]) with
    | error e => rw [h1] at h; cases h
    | ok ex =>
      rw [h1] at h
      cases h2 : expandActions cfg rest with
      | error e => rw [h2] at h; cases h
      | ok r =>
        rw [h2] at h
        simp only [Except.ok.injEq] at h
        subst h
        rcases List.mem_append.mp hb with hb | hb
        · by_cases hbus : isBusPokeExpect a
          · rw [if_pos hbus] at h1
            exact expand_bus_delaysNonneg cfg a ex h1
              (hnn a (List.mem_cons_self a rest)) b hb
          · rw [if_neg hbus] at h1
            simp only [Except.ok.injEq] at h1
            subst h1
            simp only [List.mem_singleton] at hb
            rw [hb]
            exact hnn a (List.mem_cons_self a rest)
        · exact ih r h2 (fun x hx => hnn x (List.mem_cons_of_mem a hx)) b hb

/-- C6: every compilation result satisfies that each port name referenced by
a recorded check or print is in the recorded-signal set, and — whenever the
configured default step and all explicit delays and Delay durations are
nonnegative — `stop_time` bounds the time of every recorded check and
print. -/
theorem compile_invariants (cfg : Config) (actions : List Action)
    (comp : CompiledSpiceActions)
    (hcomp : compile_actions cfg actions = .ok comp) :
    ((∀ c ∈ comp.checks, c.2.port.name ∈ comp.saves) ∧
     (∀ pr ∈ comp.prints, ∀ p ∈ pr.2.ports, p.name ∈ comp.saves)) ∧
    (0 ≤ cfg.clock_step_delay → (∀ a ∈ actions, delaysNonneg a) →
      (∀ c ∈ comp.checks, c.1 ≤ comp.stop_time) ∧
      (∀ pr ∈ comp.prints, pr.1 ≤ comp.stop_time)) := by
  unfold compile_actions at hcomp
  cases hexp : expandActions cfg actions with
  | error e => rw [hexp] at hcomp; cases hcomp
  | ok acts =>
    rw [hexp] at hcomp
    simp only [Except.ok.injEq] at hcomp
    subst hcomp
    constructor
    · have h := savesInv_foldl cfg acts initCompState
        ⟨by simp [initCompState], by simp [initCompState]⟩
      exact ⟨h.1, h.2⟩
    · intro hcsd hnn
      have h := timesInv_foldl cfg hcsd acts initCompState
        (expandActions_delaysNonneg cfg actions acts hexp hnn)
        ⟨by simp [initCompState], by simp [initCompState]⟩
      exact ⟨h.1, h.2⟩

/-- Witness for C6 at a concrete action list with a check and a print. -/
theorem compile_invariants_witness :
    ((∀ c ∈ c6Comp.checks, c.2.port.name ∈ c6Comp.saves) ∧
     (∀ pr ∈ c6Comp.prints, ∀ p ∈ pr.2.ports, p.name ∈ c6Comp.saves)) ∧
    ((∀ c ∈ c6Comp.checks, c.1 ≤ c6Comp.stop_time) ∧
     (∀ pr ∈ c6Comp.prints, pr.1 ≤ c6Comp.stop_time)) := by
  have h := compile_invariants defaultConfig c6Acts c6Comp
    (by
      norm_num [compile_actions, expandActions, isBusPokeExpect, expand_bus,
        compileStep, initCompState, stim_pair, Value.truthy, pwcAppend,
        pwc_to_pwl, pwlRamps, c6Acts, c6Comp, defaultConfig, outExpect]
      simp)
  exact ⟨h.1, h.2 (by norm_num [defaultConfig])
    (by intro a ha; fin_cases ha <;> norm_num [delaysNonneg])⟩

/-- C7: check evaluation stops at the first failure: if every check before
`c` passes and `c` itself fails with error `e`, then the whole run fails
with `e`, whatever checks follow — later checks are never evaluated and
failures are never accumulated. -/
theorem check_results_first_failure (cfg : Config) (results : String → ℚ → ℚ)
    (pre : List (ℚ × ExpectAct)) (c : ℚ × ExpectAct)
    (post : List (ℚ × ExpectAct)) (e : SpiceErr)
    (hpre : ∀ a ∈ pre, impl_expect cfg results a.1 a.2 = .ok ())
    (hc : impl_expect cfg results c.1 c.2 = .error e) :
    check_results cfg results (pre ++ c :: post) = .error e := by
  induction pre with
  | nil => simp only [List.nil_append, check_results, hc]
  | cons p ps ih =>
    have hp := hpre p (List.mem_cons_self p ps)
    simp only [List.cons_append, check_results, hp]
    exact ih (fun a ha => hpre a (List.mem_cons_of_mem p ha))

/-- Witness for C7: with one passing check followed by two failing checks,
the run reports exactly the first failure. -/
theorem check_results_first_failure_witness :
    check_results defaultConfig constZeroTrace
        ([passCheck] ++ failCheck1 :: [failCheck2])
      = .error (.assertionError none none (.int 1) 0) :=
  check_results_first_failure defaultConfig constZeroTrace
    [passCheck] failCheck1 [failCheck2] (.assertionError none none (.int 1) 0)
    (by decide) (by decide)

end Fault
